import Mathlib

/-!
# Verification of the tinybio encoding and orchestration layer

Shallow embedding of `src/tinybio/tinybio.py` (NillionNetwork/tinybio).
Descriptor components are modelled as rationals: Python multiplies a float
by `2 ** 8`, which is exact scaling for binary floating point, and then
applies `round`, which rounds half to even on the exact value; the rational
model below reproduces that computation exactly for every representable
input.  The external MPC engine (`tinynmc`) is out of scope for the layer;
where a claim depends on the engine's documented contract, the definition
carries a `Modelled from the spec:` note.
-/

namespace Tinybio

/-- `_PRECISION = 8` from the source: number of fractional bits. -/
def _PRECISION : ℕ := 8

/-- Python's `round` on an exact value: nearest integer, ties to even. -/
def roundHalfEven (x : ℚ) : ℤ :=
  if x - ⌊x⌋ < 1 / 2 then ⌊x⌋
  else if 1 / 2 < x - ⌊x⌋ then ⌊x⌋ + 1
  else if ⌊x⌋ % 2 = 0 then ⌊x⌋ else ⌊x⌋ + 1

/-- `round(value * (2 ** _PRECISION))` from `_encode`. -/
def quantize (x : ℚ) : ℤ :=
  roundHalfEven (x * 2 ^ _PRECISION)

/-- The `for` loop of `_encode`: `for (index, value) in enumerate(encoding, 2):
coords_to_values[(index, reg_0_or_auth_1)] = (-2 if for_auth else 1) * value`.
`start` is the next insertion index (initially 2), `role` the column and `c`
the sign/scale factor. -/
def encodeFrom : List ℤ → ℕ → ℕ → ℤ → List ((ℕ × ℕ) × ℤ)
  | [], _, _, _ => []
  | v :: vs, start, role, c => ((start, role), c * v) :: encodeFrom vs (start + 1) role c

/-- `_encode(descriptor, for_auth)`: the dict is modelled as an association
list in insertion order (the anchor entry first, then one entry per
component); all keys are distinct. -/
def _encode (descriptor : List ℚ) (for_auth : Bool) : List ((ℕ × ℕ) × ℤ) :=
  let reg_0_or_auth_1 : ℕ := if for_auth then 1 else 0
  let encoding : List ℤ := descriptor.map quantize
  ((reg_0_or_auth_1, 0), (encoding.map fun v => v ^ 2).sum)
    :: encodeFrom encoding 2 reg_0_or_auth_1 (if for_auth then -2 else 1)

/-- Dict lookup with default 0 (keys in our encodings are unique, so
first-match agrees with Python dict lookup). -/
def lookupCoeff : List ((ℕ × ℕ) × ℤ) → (ℕ × ℕ) → ℤ
  | [], _ => 0
  | (k, v) :: es, c => if c = k then v else lookupCoeff es c

namespace request

/-- `request.registration(descriptor) = request(_encode(descriptor, False).keys())`. -/
def registration (descriptor : List ℚ) : List (ℕ × ℕ) :=
  (_encode descriptor false).map Prod.fst

/-- `request.authentication(descriptor) = request(_encode(descriptor, True).keys())`. -/
def authentication (descriptor : List ℚ) : List (ℕ × ℕ) :=
  (_encode descriptor true).map Prod.fst

end request

/-- Python-level failure modes relevant to this layer.  `attributeError` is
the implicit failure of `getattr(self, '_signature')` on a node that was
never preprocessed; `notPreprocessed` is the dedicated error the spec asks
for (the source never raises it). -/
inductive PyError where
  | attributeError : PyError
  | notPreprocessed : PyError
  | dimensionMismatch : PyError
  | fieldOverflow : PyError
deriving DecidableEq, Repr

/-- A node of this layer: the only state the layer itself manages is the
`_signature` attribute, set by `preprocess` via `setattr` and absent before
(the engine-side preprocessing material lives in the external `tinynmc.node`
base class, out of scope). `none` models the absent attribute. -/
structure Node where
  signature : Option (List ℕ)
deriving DecidableEq, Repr

/-- `node()`: a freshly constructed node has no `_signature` attribute. -/
def freshNode : Node := ⟨none⟩

/-- The delegation `self.compute(signature, [registration_token,
authentication_token])` to the external engine: the layer's own behaviour is
fully described by the arguments it hands over, recorded here. -/
structure EngineCall (τ : Type) where
  signature : List ℕ
  tokens : List τ
deriving DecidableEq, Repr

/-- `node.authenticate(registration_token, authentication_token)`:
`getattr(self, '_signature')` raises `AttributeError` when the attribute is
absent; otherwise the call is delegated to the engine's `compute`. -/
def Node.authenticate {τ : Type} (n : Node)
    (registration_token authentication_token : τ) : Except PyError (EngineCall τ) :=
  match n.signature with
  | none => .error .attributeError
  | some s => .ok ⟨s, [registration_token, authentication_token]⟩

/-- `preprocess(nodes, length)`: builds `signature = [1, 1] + [2] * length`,
invokes `tinynmc.preprocess(signature, nodes)` (the first component records
the signature handed to the engine) and stores the same signature on every
node via `setattr`. -/
def preprocess (nodes : List Node) (length : ℕ) : List ℕ × List Node :=
  let signature : List ℕ := [1, 1] ++ List.replicate length 2
  (signature, nodes.map fun _ => ⟨some signature⟩)

/-- `reveal(shares) = math.sqrt(int(sum(shares)) / (2 ** (2 * _PRECISION)))`:
shares are field elements mod `p`; `int` of the modular sum is the canonical
representative `val ∈ [0, p)`. -/
noncomputable def reveal (p : ℕ) [NeZero p] (shares : List (ZMod p)) : ℝ :=
  Real.sqrt (((shares.sum).val : ℝ) / 2 ^ (2 * _PRECISION))

/-- Modelled from the spec: the external engine (`tinynmc`, out of scope) is
contracted so that "shares sum exactly to the signature-weighted bilinear
evaluation of the unmasked encodings".  For signature `[1,1] ++ [2]*L` the
width-1 positions (rows 0 and 1, column 0) contribute their single entry and
each width-2 position (row `2+i`, columns 0 and 1) contributes the product
of its two entries. -/
def bilinear (reg auth : List ((ℕ × ℕ) × ℤ)) (L : ℕ) : ℤ :=
  lookupCoeff reg (0, 0) + lookupCoeff auth (1, 0)
    + ((List.range L).map fun i => lookupCoeff reg (2 + i, 0) * lookupCoeff auth (2 + i, 1)).sum

/-! ### Structural lemmas about the encoding -/

theorem lookupCoeff_encodeFrom (vs : List ℤ) (role : ℕ) (c : ℤ) :
    ∀ (start i : ℕ), i < vs.length →
      lookupCoeff (encodeFrom vs start role c) (start + i, role) = c * vs.getD i 0 := by
  induction vs with
  | nil => intro start i h; simp at h
  | cons v vs ih =>
      intro start i h
      cases i with
      | zero => simp [encodeFrom, lookupCoeff]
      | succ i =>
          have h' : i < vs.length := by simpa using h
          have key : start + (i + 1) = start + 1 + i := by omega
          simp only [encodeFrom, lookupCoeff, List.getD_cons_succ]
          rw [if_neg (by simp only [Prod.mk.injEq, not_and]; intro hc; omega), key]
          exact ih (start + 1) i h'

theorem keys_encodeFrom (vs : List ℤ) (role : ℕ) (c : ℤ) :
    ∀ start : ℕ, (encodeFrom vs start role c).map Prod.fst
      = (List.range vs.length).map fun i => (start + i, role) := by
  induction vs with
  | nil => intro start; simp [encodeFrom]
  | cons v vs ih =>
      intro start
      simp only [encodeFrom, List.map_cons, List.length_cons, List.range_succ_eq_map,
        List.map_map, ih (start + 1)]
      congr 1
      · simp
        omega

theorem lookupCoeff_encode_reg_anchor (d : List ℚ) :
    lookupCoeff (_encode d false) (0, 0) = ((d.map quantize).map fun v => v ^ 2).sum := by
  simp [_encode, lookupCoeff]

theorem lookupCoeff_encode_auth_anchor (d : List ℚ) :
    lookupCoeff (_encode d true) (1, 0) = ((d.map quantize).map fun v => v ^ 2).sum := by
  simp [_encode, lookupCoeff]

theorem lookupCoeff_encode_reg_comp (d : List ℚ) (i : ℕ) (h : i < d.length) :
    lookupCoeff (_encode d false) (2 + i, 0) = (d.map quantize).getD i 0 := by
  have hlen : i < (d.map quantize).length := by simpa using h
  have hmain := lookupCoeff_encodeFrom (d.map quantize) 0 1 2 i hlen
  simp only [_encode, lookupCoeff, Bool.false_eq_true, if_false]
  rw [if_neg (by simp only [Prod.mk.injEq]; omega)]
  simpa using hmain

theorem lookupCoeff_encode_auth_comp (d : List ℚ) (i : ℕ) (h : i < d.length) :
    lookupCoeff (_encode d true) (2 + i, 1) = -2 * (d.map quantize).getD i 0 := by
  have hlen : i < (d.map quantize).length := by simpa using h
  have hmain := lookupCoeff_encodeFrom (d.map quantize) 1 (-2) 2 i hlen
  simp only [_encode, lookupCoeff, if_true]
  rw [if_neg (by simp only [Prod.mk.injEq]; omega)]
  simpa using hmain

theorem sum_range_getD_zip (f : ℤ → ℤ → ℤ) :
    ∀ (q r : List ℤ), q.length = r.length →
      ((List.range q.length).map fun i => f (q.getD i 0) (r.getD i 0)).sum
        = ((q.zip r).map fun p => f p.1 p.2).sum := by
  intro q
  induction q with
  | nil => intro r h; simp
  | cons a q ih =>
      intro r h
      cases r with
      | nil => simp at h
      | cons b r =>
          have h' : q.length = r.length := by simpa using h
          simp only [List.length_cons, List.range_succ_eq_map, List.map_cons, List.map_map,
            List.zip_cons_cons, List.sum_cons, List.getD_cons_zero, Function.comp_def,
            Nat.succ_eq_add_one, List.getD_cons_succ]
          rw [ih r h']

theorem zip_sq_identity :
    ∀ (q r : List ℤ), q.length = r.length →
      (q.map fun v => v ^ 2).sum + (r.map fun v => v ^ 2).sum
          + ((q.zip r).map fun p => p.1 * (-2 * p.2)).sum
        = ((q.zip r).map fun p => (p.1 - p.2) ^ 2).sum := by
  intro q
  induction q with
  | nil =>
      intro r h
      cases r with
      | nil => simp
      | cons b r => simp at h
  | cons a q ih =>
      intro r h
      cases r with
      | nil => simp at h
      | cons b r =>
          have h' : q.length = r.length := by simpa using h
          simp only [List.map_cons, List.zip_cons_cons, List.sum_cons]
          calc (a ^ 2 + (q.map fun v => v ^ 2).sum) + (b ^ 2 + (r.map fun v => v ^ 2).sum)
                + (a * (-2 * b) + ((q.zip r).map fun p => p.1 * (-2 * p.2)).sum)
              = (a ^ 2 + b ^ 2 + a * (-2 * b))
                + ((q.map fun v => v ^ 2).sum + (r.map fun v => v ^ 2).sum
                  + ((q.zip r).map fun p => p.1 * (-2 * p.2)).sum) := by ring
            _ = (a - b) ^ 2 + ((q.zip r).map fun p => (p.1 - p.2) ^ 2).sum := by
                rw [ih r h']; ring

/-- The signature-weighted bilinear combination of a registration encoding of
`x` and an authentication encoding of `y` is the sum of squared differences
of the quantized components. -/
theorem bilinear_encode_eq (x y : List ℚ) (h : x.length = y.length) :
    bilinear (_encode x false) (_encode y true) x.length
      = (((x.map quantize).zip (y.map quantize)).map fun p => (p.1 - p.2) ^ 2).sum := by
  unfold bilinear
  rw [lookupCoeff_encode_reg_anchor, lookupCoeff_encode_auth_anchor]
  have hmap : ((List.range x.length).map fun i =>
        lookupCoeff (_encode x false) (2 + i, 0) * lookupCoeff (_encode y true) (2 + i, 1))
      = (List.range x.length).map fun i =>
        (fun a b => a * (-2 * b)) ((x.map quantize).getD i 0) ((y.map quantize).getD i 0) := by
    apply List.map_congr_left
    intro i hi
    have hix : i < x.length := List.mem_range.mp hi
    have hiy : i < y.length := h ▸ hix
    rw [lookupCoeff_encode_reg_comp x i hix, lookupCoeff_encode_auth_comp y i hiy]
  rw [hmap]
  have hlen : (x.map quantize).length = (y.map quantize).length := by simpa using h
  rw [show x.length = (x.map quantize).length by simp]
  rw [sum_range_getD_zip (fun a b => a * (-2 * b)) (x.map quantize) (y.map quantize) hlen]
  exact zip_sq_identity (x.map quantize) (y.map quantize) hlen

/-- `roundHalfEven` is the identity on integers. -/
theorem roundHalfEven_intCast (n : ℤ) : roundHalfEven ((n : ℤ) : ℚ) = n := by
  unfold roundHalfEven
  rw [Int.floor_intCast, sub_self]
  norm_num

/-- `roundHalfEven` picks a nearest integer. -/
theorem roundHalfEven_nearest (y : ℚ) (m : ℤ) :
    |y - (roundHalfEven y : ℚ)| ≤ |y - (m : ℚ)| := by
  have h0 : ((⌊y⌋ : ℤ) : ℚ) ≤ y := Int.floor_le y
  have h1 : y < ((⌊y⌋ : ℤ) : ℚ) + 1 := Int.lt_floor_add_one y
  have hm : ((m : ℤ) : ℚ) ≤ ((⌊y⌋ : ℤ) : ℚ) ∨ ((⌊y⌋ : ℤ) : ℚ) + 1 ≤ ((m : ℤ) : ℚ) := by
    rcases le_or_lt m ⌊y⌋ with h | h
    · left; exact_mod_cast h
    · right; exact_mod_cast h
  unfold roundHalfEven
  split_ifs with hlt hgt hev
  · rcases hm with hm | hm
    · rw [abs_of_nonneg (by linarith), abs_of_nonneg (by linarith)]; linarith
    · rw [abs_of_nonneg (by linarith), abs_of_nonpos (by linarith)]; linarith
  · push_cast
    rcases hm with hm | hm
    · rw [abs_of_nonpos (by linarith), abs_of_nonneg (by linarith)]; linarith
    · rw [abs_of_nonpos (by linarith), abs_of_nonpos (by linarith)]; linarith
  · have heq : y - ((⌊y⌋ : ℤ) : ℚ) = 1 / 2 := by linarith
    rcases hm with hm | hm
    · rw [abs_of_nonneg (by linarith), abs_of_nonneg (by linarith)]; linarith
    · rw [abs_of_nonneg (by linarith), abs_of_nonpos (by linarith)]; linarith
  · have heq : y - ((⌊y⌋ : ℤ) : ℚ) = 1 / 2 := by linarith
    push_cast
    rcases hm with hm | hm
    · rw [abs_of_nonpos (by linarith), abs_of_nonneg (by linarith)]; linarith
    · rw [abs_of_nonpos (by linarith), abs_of_nonpos (by linarith)]; linarith

/-- `roundHalfEven` resolves exact halfway cases to the even integer. -/
theorem roundHalfEven_tie (y : ℚ) (n : ℤ) (h : y = (n : ℚ) + 1 / 2) :
    Even (roundHalfEven y) := by
  have hfl : ⌊y⌋ = n := by
    rw [h, Int.floor_int_add]
    norm_num
  have hy : y - ((⌊y⌋ : ℤ) : ℚ) = 1 / 2 := by rw [hfl, h]; ring
  unfold roundHalfEven
  rw [hy, hfl]
  rw [if_neg (by norm_num), if_neg (by norm_num)]
  rcases Int.even_or_odd n with he | ho
  · rw [if_pos (Int.even_iff.mp he)]; exact he
  · rw [if_neg (by rw [Int.odd_iff.mp ho]; norm_num)]
    exact Odd.add_one ho

/-- Swapping the two descriptors leaves the sum of squared differences of the
quantized components unchanged. -/
theorem zip_sq_symm : ∀ q r : List ℤ,
    ((q.zip r).map fun p => (p.1 - p.2) ^ 2).sum
      = ((r.zip q).map fun p => (p.1 - p.2) ^ 2).sum := by
  intro q
  induction q with
  | nil => intro r; cases r <;> simp
  | cons a q ih =>
      intro r
      cases r with
      | nil => simp
      | cons b r =>
          simp only [List.zip_cons_cons, List.map_cons, List.sum_cons, ih r]
          ring_nf

/-- The coordinate set (dict keys, in insertion order) of an encoding:
the role's anchor first, then one coordinate per component. -/
theorem keys_encode (d : List ℚ) (b : Bool) :
    (_encode d b).map Prod.fst
      = ((if b then 1 else 0), 0)
        :: ((List.range d.length).map fun i => (2 + i, if b then 1 else 0)) := by
  simp only [_encode, List.map_cons, keys_encodeFrom, List.length_map]

/-! ### Claims -/

/-- C1: for a registration descriptor `x` with quantized components `q` the
encoding maps anchor `(0,0)` to `Σ q_i ^ 2` and `(2+i, 0)` to `+q_i`; for an
authentication descriptor `y` with quantized components `r` it maps anchor
`(1,0)` to `Σ r_i ^ 2` and `(2+i, 1)` to `-2 * r_i`; consequently the
signature-weighted bilinear combination of the two encodings (width-1
entries summed, paired width-2 entries multiplied then summed) equals
`Σ (q_i - r_i) ^ 2` exactly. -/
theorem C1_encoding_bilinear (x y : List ℚ) (h : x.length = y.length) :
    lookupCoeff (_encode x false) (0, 0) = ((x.map quantize).map fun v => v ^ 2).sum
    ∧ (∀ i, i < x.length →
        lookupCoeff (_encode x false) (2 + i, 0) = (x.map quantize).getD i 0)
    ∧ lookupCoeff (_encode y true) (1, 0) = ((y.map quantize).map fun v => v ^ 2).sum
    ∧ (∀ i, i < y.length →
        lookupCoeff (_encode y true) (2 + i, 1) = -2 * (y.map quantize).getD i 0)
    ∧ bilinear (_encode x false) (_encode y true) x.length
        = (((x.map quantize).zip (y.map quantize)).map fun p => (p.1 - p.2) ^ 2).sum := by
  exact ⟨lookupCoeff_encode_reg_anchor x, fun i hi => lookupCoeff_encode_reg_comp x i hi,
    lookupCoeff_encode_auth_anchor y, fun i hi => lookupCoeff_encode_auth_comp y i hi,
    bilinear_encode_eq x y h⟩

/-- Witness for C1 at the concrete pair `x = [0.5, 0.3]`, `y = [0.1, 0.4]`:
the quantized components are `[128, 77]` and `[26, 102]`, and the bilinear
combination is `(128 - 26)^2 + (77 - 102)^2 = 11029`. -/
theorem C1_encoding_bilinear_witness :
    bilinear (_encode [(1 : ℚ)/2, 3/10] false) (_encode [(1 : ℚ)/10, 2/5] true)
        ([(1 : ℚ)/2, 3/10] : List ℚ).length = 11029 :=
  ((C1_encoding_bilinear [(1 : ℚ)/2, 3/10] [(1 : ℚ)/10, 2/5] rfl).2.2.2.2).trans (by
    norm_num [quantize, roundHalfEven, _PRECISION])

/-- The modulus appearing in the source's `reveal` doctest. -/
def pDoc : ℕ := 4215209819

instance : NeZero pDoc := ⟨by norm_num [pDoc]⟩

/-- C2: `reveal` returns `sqrt(n / 2^(2*8))` where `n` is the canonical
representative in `[0, p)` of the modular sum of all the shares; under the
precondition that the true plaintext sum `m` lies strictly within `[0, p)`,
the representative equals `m`, so the result is the fixed-point-rescaled
quantized squared distance, and a square root is always applied. -/
theorem C2_reveal_sqrt (p : ℕ) [NeZero p] (shares : List (ZMod p)) (m : ℕ)
    (hm : m < p) (hsum : shares.sum = (m : ZMod p)) :
    reveal p shares = Real.sqrt (((shares.sum).val : ℝ) / 2 ^ (2 * 8))
    ∧ (shares.sum).val = m
    ∧ reveal p shares = Real.sqrt ((m : ℝ) / 2 ^ (2 * 8)) := by
  have hval : (shares.sum).val = m := by rw [hsum]; exact ZMod.val_cast_of_lt hm
  refine ⟨by simp [reveal, _PRECISION], hval, ?_⟩
  simp [reveal, _PRECISION, hval]

/-- Witness for C2 at the doctest shares: `p = 4215209819` and shares
`2042458237, 1046840547, 1125923365`, which sum to `p + 12330`. -/
theorem C2_reveal_sqrt_witness :
    reveal pDoc [((2042458237 : ℕ) : ZMod pDoc), ((1046840547 : ℕ) : ZMod pDoc),
        ((1125923365 : ℕ) : ZMod pDoc)]
      = Real.sqrt (((12330 : ℕ) : ℝ) / 2 ^ (2 * 8)) := by
  have hsum : [((2042458237 : ℕ) : ZMod pDoc), ((1046840547 : ℕ) : ZMod pDoc),
      ((1125923365 : ℕ) : ZMod pDoc)].sum = ((12330 : ℕ) : ZMod pDoc) := by
    simp only [List.sum_cons, List.sum_nil, add_zero]
    rw [← Nat.cast_add, ← Nat.cast_add]
    rw [show (2042458237 + (1046840547 + 1125923365) : ℕ) = 12330 + pDoc by norm_num [pDoc]]
    rw [Nat.cast_add, ZMod.natCast_self, add_zero]
  exact (C2_reveal_sqrt pDoc _ 12330 (by norm_num [pDoc]) hsum).2.2

/-- C7: the revealed Euclidean distance is symmetric in the two descriptors:
at the quantized level the two signature-weighted bilinear combinations are
exactly equal, and any share collections that sum to the two (equal) results
reveal the same score. -/
theorem C7_distance_symmetry (A B : List ℚ) (h : A.length = B.length) :
    bilinear (_encode A false) (_encode B true) A.length
      = bilinear (_encode B false) (_encode A true) B.length
    ∧ ∀ (p : ℕ) [NeZero p] (s t : List (ZMod p)),
        s.sum = ((bilinear (_encode A false) (_encode B true) A.length : ℤ) : ZMod p) →
        t.sum = ((bilinear (_encode B false) (_encode A true) B.length : ℤ) : ZMod p) →
        reveal p s = reveal p t := by
  have hb : bilinear (_encode A false) (_encode B true) A.length
      = bilinear (_encode B false) (_encode A true) B.length := by
    rw [bilinear_encode_eq A B h, bilinear_encode_eq B A h.symm]
    exact zip_sq_symm (A.map quantize) (B.map quantize)
  refine ⟨hb, ?_⟩
  intro p _ s t hs ht
  unfold reveal
  rw [hs, ht, hb]

/-- Witness for C7 at `A = [0.5]`, `B = [0.25]`: both orders give bilinear
value `(128 - 64)^2 = 4096`. -/
theorem C7_distance_symmetry_witness :
    bilinear (_encode [(1 : ℚ)/2] false) (_encode [(1 : ℚ)/4] true)
        ([(1 : ℚ)/2] : List ℚ).length
      = bilinear (_encode [(1 : ℚ)/4] false) (_encode [(1 : ℚ)/2] true)
        ([(1 : ℚ)/4] : List ℚ).length :=
  (C7_distance_symmetry [(1 : ℚ)/2] [(1 : ℚ)/4] rfl).1

/-- C3 counterexample: after preprocessing with `L = 4`, submitting a
length-3 descriptor to `request.registration` raises no `DimensionMismatch`:
the request is computed normally — the request constructor never sees the
preprocessed length and the source contains no check at all. -/
theorem C3_counterexample :
    (preprocess [freshNode, freshNode, freshNode] 4).1 = [1, 1, 2, 2, 2, 2]
    ∧ request.registration [0, 0, 0] = [(0, 0), (2, 0), (3, 0), (4, 0)] := by
  constructor
  · rfl
  · norm_num [request.registration, _encode, encodeFrom, quantize, roundHalfEven, _PRECISION]

/-- C3 amended: the request constructors perform no dimension check (they
have no access to the preprocessed length); for a descriptor of any length
`L` they return the full coordinate list of `L + 1` entries — never an
error and never truncated or padded. -/
theorem C3_no_dimension_check (d : List ℚ) :
    request.registration d = (0, 0) :: ((List.range d.length).map fun i => (2 + i, 0))
    ∧ request.authentication d = (1, 0) :: ((List.range d.length).map fun i => (2 + i, 1))
    ∧ (request.registration d).length = d.length + 1
    ∧ (request.authentication d).length = d.length + 1 := by
  have hr : request.registration d
      = (0, 0) :: ((List.range d.length).map fun i => (2 + i, 0)) := by
    simpa using keys_encode d false
  have ha : request.authentication d
      = (1, 0) :: ((List.range d.length).map fun i => (2 + i, 1)) := by
    simpa using keys_encode d true
  refine ⟨hr, ha, ?_, ?_⟩
  · rw [hr]; simp
  · rw [ha]; simp

/-- C4 counterexample: `_encode` performs no field-overflow check: the
descriptor `[2^20]` quantizes to `2^28`, its encoded anchor coefficient is
`2^56` — far above the doctest modulus `4215209819` — and the encoding is
returned normally instead of being rejected. -/
theorem C4_counterexample :
    _encode [(1048576 : ℚ)] false = [((0, 0), 72057594037927936), ((2, 0), 268435456)]
    ∧ (pDoc : ℤ) < 72057594037927936 := by
  constructor
  · norm_num [_encode, encodeFrom, quantize, roundHalfEven, _PRECISION]
  · norm_num [pDoc]

/-- C4 amended: the encoding layer never rejects large magnitudes: for every
bound there is a descriptor whose encoded anchor coefficient exceeds the
bound, so any modular wraparound is left to the external engine. -/
theorem C4_no_overflow_check (bound : ℤ) :
    ∃ d : List ℚ, bound < lookupCoeff (_encode d false) (0, 0) := by
  refine ⟨[((bound.natAbs + 1 : ℤ) : ℚ)], ?_⟩
  rw [lookupCoeff_encode_reg_anchor]
  have hq : quantize (((bound.natAbs + 1 : ℤ) : ℚ)) = 2 ^ 8 * (bound.natAbs + 1) := by
    have hcast : (((bound.natAbs + 1 : ℤ) : ℚ)) * 2 ^ _PRECISION
        = (((2 ^ 8 * (bound.natAbs + 1) : ℤ) : ℤ) : ℚ) := by
      push_cast [_PRECISION]; ring
    unfold quantize
    rw [hcast, roundHalfEven_intCast]
  simp only [List.map_cons, List.map_nil, List.sum_cons, List.sum_nil, add_zero, hq]
  have hk : (0 : ℤ) ≤ (bound.natAbs : ℤ) := Int.natCast_nonneg _
  have hb : bound ≤ (bound.natAbs : ℤ) := Int.le_natAbs
  nlinarith [sq_nonneg ((bound.natAbs : ℤ) + 1)]

/-- C5 counterexample: on a fresh node (no preprocessing), `authenticate`
fails with the implicit absent-attribute error of
`getattr(self, '_signature')`, not with a dedicated
"not preprocessed" error. -/
theorem C5_counterexample :
    freshNode.authenticate (0 : ℤ) 0 = Except.error PyError.attributeError
    ∧ freshNode.authenticate (0 : ℤ) 0 ≠ Except.error PyError.notPreprocessed := by
  constructor
  · rfl
  · simp [freshNode, Node.authenticate]

/-- C5 amended: `authenticate` on every node whose `_signature` attribute is
absent fails with the implicit absent-attribute error (`AttributeError`),
not with a dedicated "not preprocessed" error. -/
theorem C5_absent_attribute (τ : Type) (t u : τ) (n : Node) (h : n.signature = none) :
    n.authenticate t u = Except.error PyError.attributeError := by
  unfold Node.authenticate
  rw [h]

/-- Witness for C5 amended: a freshly constructed node. -/
theorem C5_absent_attribute_witness :
    freshNode.authenticate (37 : ℤ) 42 = Except.error PyError.attributeError :=
  C5_absent_attribute ℤ 37 42 freshNode rfl

/-- C6: `preprocess` builds the signature `[1, 1] ++ [2] * L` (exactly `L`
trailing 2s), invokes the external engine's preprocessing with exactly that
signature (the first component of the result records the engine call), and
afterwards every node of the collection holds that identical signature. -/
theorem C6_preprocess_signature (nodes : List Node) (L : ℕ) :
    (preprocess nodes L).1 = [1, 1] ++ List.replicate L 2
    ∧ (∀ n ∈ (preprocess nodes L).2, n.signature = some ([1, 1] ++ List.replicate L 2))
    ∧ ((preprocess nodes L).2).length = nodes.length := by
  refine ⟨rfl, ?_, by simp [preprocess]⟩
  intro n hn
  simp only [preprocess, List.mem_map] at hn
  obtain ⟨a, _, rfl⟩ := hn
  rfl

/-- C8: requests are exactly the coordinate set (the keys) of the
corresponding encoding and contain no coefficient values; consequently any
two descriptors of the same length produce identical requests for the same
role — a request reveals nothing about a descriptor beyond its length and
role. -/
theorem C8_request_noninterference (d₁ d₂ : List ℚ) (h : d₁.length = d₂.length) :
    request.registration d₁ = (_encode d₁ false).map Prod.fst
    ∧ request.authentication d₁ = (_encode d₁ true).map Prod.fst
    ∧ request.registration d₁ = request.registration d₂
    ∧ request.authentication d₁ = request.authentication d₂ := by
  refine ⟨rfl, rfl, ?_, ?_⟩
  · show (_encode d₁ false).map Prod.fst = (_encode d₂ false).map Prod.fst
    rw [keys_encode, keys_encode, h]
  · show (_encode d₁ true).map Prod.fst = (_encode d₂ true).map Prod.fst
    rw [keys_encode, keys_encode, h]

/-- Witness for C8: the distinct same-length descriptors `[0.5]` and `[7]`
produce identical registration requests. -/
theorem C8_request_noninterference_witness :
    request.registration [(1 : ℚ)/2] = request.registration [(7 : ℚ)] :=
  (C8_request_noninterference [(1 : ℚ)/2] [(7 : ℚ)] rfl).2.2.1

/-- C9: quantization maps every component `x` to a nearest integer of
`x * 2 ^ _PRECISION` with `_PRECISION = 8`, and an exact halfway case is
resolved to the even integer (round half to even); the function is a pure
function of `x`, so encodings are deterministic.  (Python computes
`round(value * 2 ** 8)`; scaling a binary float by `2 ** 8` is exact and
`round` rounds half to even on the exact value, which is what
`roundHalfEven` does on the rational model.) -/
theorem C9_quantization_rounding (x : ℚ) :
    _PRECISION = 8
    ∧ (∀ m : ℤ, |x * 2 ^ _PRECISION - (quantize x : ℚ)| ≤ |x * 2 ^ _PRECISION - (m : ℚ)|)
    ∧ ∀ n : ℤ, x * 2 ^ _PRECISION = (n : ℚ) + 1 / 2 → Even (quantize x) :=
  ⟨rfl, fun m => roundHalfEven_nearest (x * 2 ^ _PRECISION) m,
   fun n hn => roundHalfEven_tie (x * 2 ^ _PRECISION) n hn⟩

/-- Witness for C9 at `x = 3/512`: `x * 2^8 = 3/2` is an exact tie and is
rounded to the even integer 2. -/
theorem C9_quantization_rounding_witness :
    Even (quantize ((3 : ℚ)/512)) ∧ quantize ((3 : ℚ)/512) = 2 :=
  ⟨(C9_quantization_rounding ((3 : ℚ)/512)).2.2 1 (by norm_num [_PRECISION]),
   by norm_num [quantize, roundHalfEven, _PRECISION]⟩

/-- C10: the registration request of a descriptor of length `L` is exactly
`(0,0)` followed by `(2+i, 0)` for `i < L`, and the authentication request
is exactly `(1,0)` followed by `(2+i, 1)` for `i < L`; each has `L + 1`
coordinates, the two coordinate sets are disjoint for any two descriptors
of the same length, and for the empty descriptor each encoding is the
single anchor coordinate with coefficient 0. -/
theorem C10_coordinate_invariants (d₁ d₂ : List ℚ) (h : d₁.length = d₂.length) :
    request.registration d₁ = (0, 0) :: ((List.range d₁.length).map fun i => (2 + i, 0))
    ∧ request.authentication d₂ = (1, 0) :: ((List.range d₂.length).map fun i => (2 + i, 1))
    ∧ (request.registration d₁).length = d₁.length + 1
    ∧ (request.authentication d₂).length = d₂.length + 1
    ∧ (∀ c ∈ request.registration d₁, c ∉ request.authentication d₂)
    ∧ _encode ([] : List ℚ) false = [((0, 0), 0)]
    ∧ _encode ([] : List ℚ) true = [((1, 0), 0)] := by
  have hr : request.registration d₁
      = (0, 0) :: ((List.range d₁.length).map fun i => (2 + i, 0)) := by
    simpa using keys_encode d₁ false
  have ha : request.authentication d₂
      = (1, 0) :: ((List.range d₂.length).map fun i => (2 + i, 1)) := by
    simpa using keys_encode d₂ true
  refine ⟨hr, ha, by rw [hr]; simp, by rw [ha]; simp, ?_, rfl, rfl⟩
  intro c hc hc'
  rw [hr] at hc
  rw [ha] at hc'
  rcases List.mem_cons.mp hc with rfl | hc
  · rcases List.mem_cons.mp hc' with he | hmem
    · rw [Prod.mk.injEq] at he; omega
    · obtain ⟨i, _, he⟩ := List.mem_map.mp hmem
      rw [Prod.mk.injEq] at he; omega
  · obtain ⟨i, _, rfl⟩ := List.mem_map.mp hc
    rcases List.mem_cons.mp hc' with he | hmem
    · rw [Prod.mk.injEq] at he; omega
    · obtain ⟨j, _, he⟩ := List.mem_map.mp hmem
      rw [Prod.mk.injEq] at he; omega

/-- Witness for C10 at the length-1 pair `[0.5]`, `[3]`. -/
theorem C10_coordinate_invariants_witness :
    request.registration [(1 : ℚ)/2]
      = (0, 0) :: ((List.range ([(1 : ℚ)/2] : List ℚ).length).map fun i => (2 + i, 0)) :=
  (C10_coordinate_invariants [(1 : ℚ)/2] [(3 : ℚ)] rfl).1

end Tinybio
